import Mathlib

set_option maxRecDepth 100000
set_option maxHeartbeats 1000000
set_option linter.unusedVariables false

/-!
Verification of an MD2 digest engine (RFC 1319 style), shallowly embedded
from the Rust source `src/lib.rs`.  Bytes are modelled as `Nat` (XOR of two
values below 256 stays below 256; the only wrap-around in the source,
`t = (t + j) % 256`, is kept explicitly).  Fixed 16-byte arrays are
modelled as `List Nat` together with a well-formedness predicate recording
their length.
-/

/-- The substitution table `S` from the source: a fixed 256-entry table. -/
def S : List Nat := [
  41, 46, 67, 201, 162, 216, 124, 1, 61, 54, 84, 161, 236, 240, 6, 19, 98, 167, 5, 243, 192, 199,
  115, 140, 152, 147, 43, 217, 188, 76, 130, 202, 30, 155, 87, 60, 253, 212, 224, 22, 103, 66,
  111, 24, 138, 23, 229, 18, 190, 78, 196, 214, 218, 158, 222, 73, 160, 251, 245, 142, 187, 47,
  238, 122, 169, 104, 121, 145, 21, 178, 7, 63, 148, 194, 16, 137, 11, 34, 95, 33, 128, 127, 93,
  154, 90, 144, 50, 39, 53, 62, 204, 231, 191, 247, 151, 3, 255, 25, 48, 179, 72, 165, 181, 209,
  215, 94, 146, 42, 172, 86, 170, 198, 79, 184, 56, 210, 150, 164, 125, 182, 118, 252, 107, 226,
  156, 116, 4, 241, 69, 157, 112, 89, 100, 113, 135, 32, 134, 91, 207, 101, 230, 45, 168, 2, 27,
  96, 37, 173, 174, 176, 185, 246, 28, 70, 97, 105, 52, 64, 126, 15, 85, 71, 163, 35, 221, 81,
  175, 58, 195, 92, 249, 206, 186, 197, 234, 38, 44, 83, 13, 110, 133, 40, 132, 9, 211, 223, 205,
  244, 65, 129, 77, 82, 106, 220, 55, 200, 108, 193, 171, 250, 36, 225, 123, 8, 12, 189, 177, 74,
  120, 136, 149, 139, 227, 99, 232, 109, 233, 203, 213, 254, 59, 0, 29, 57, 242, 239, 183, 14,
  102, 88, 208, 228, 166, 119, 114, 248, 235, 117, 75, 10, 49, 68, 80, 180, 143, 237, 31, 26,
  219, 153, 141, 51, 159, 17, 131, 20]

/-- The MD2 digest engine: `state`, `checksum` and `buffer` are the three
16-byte arrays of the source struct, `count` the number of valid bytes in
`buffer`. -/
structure MD2 where
  state : List Nat
  checksum : List Nat
  buffer : List Nat
  count : Nat
deriving DecidableEq

/-- `MD2::new`: all-zero state. -/
def MD2.new : MD2 :=
  { state := List.replicate 16 0
    checksum := List.replicate 16 0
    buffer := List.replicate 16 0
    count := 0 }

/-- The inner loop of the compression rounds, from `_update`:
`for k in 0..48 { x[k] ^= S[t]; t = x[k] }`, written as a structural scan
over the scratch list; returns the updated list and the final `t`. -/
def roundPass (t : Nat) : List Nat → List Nat × Nat
  | [] => ([], t)
  | b :: rest =>
    let b' := b ^^^ S.getD t 0
    let r := roundPass b' rest
    (b' :: r.1, r.2)

/-- The outer loop of the compression rounds, from `_update`:
`for j in 0..18 { inner; t = (t + j) % 256 }` starting from `t = 0`. -/
def roundsLoop (x : List Nat) : List Nat :=
  ((List.range 18).foldl (fun p j =>
    let q := roundPass p.2 p.1
    (q.1, (q.2 + j) % 256)) (x, 0)).1

/-- The checksum loop of `_update`:
`for j in 0..16 { checksum[j] ^= S[(input[j] ^ l) as usize]; l = checksum[j] }`,
written as a lockstep scan over the checksum and input lists. -/
def csLoop : Nat → List Nat → List Nat → List Nat
  | _, [], _ => []
  | _, cs, [] => cs
  | l, c :: cs, i :: inp =>
    let c' := c ^^^ S.getD (i ^^^ l) 0
    c' :: csLoop c' cs inp

/-- `MD2::_update`: the compression step over one 16-byte block.  The
48-byte scratch array is `state ++ input ++ (state XOR input)`; after 18
rounds its first 16 bytes become the new state; then the checksum is
updated starting from `l = checksum[15]`. -/
def MD2._update (m : MD2) (input : List Nat) : MD2 :=
  let x := m.state ++ input ++ List.zipWith (fun a b => a ^^^ b) m.state input
  let x' := roundsLoop x
  { m with
    state := x'.take 16
    checksum := csLoop (m.checksum.getD 15 0) m.checksum input }

/-- One bounded unfolding of the `while remaining >= 16` loop of
`MD2::update`: the loop consumes at least 16 bytes per iteration, so any
fuel of at least `rest.length` iterations runs it to completion. -/
def pbGo : Nat → MD2 → List Nat → MD2 × List Nat
  | 0, m, rest => (m, rest)
  | fuel + 1, m, rest =>
    if 16 ≤ rest.length then pbGo fuel (m._update (rest.take 16)) (rest.drop 16)
    else (m, rest)

/-- The `while remaining >= 16` loop of `MD2::update`: consumes full
16-byte blocks from `rest`, returning the advanced engine and the final
remainder (of length below 16). -/
def processBlocks (m : MD2) (rest : List Nat) : MD2 × List Nat :=
  pbGo rest.length m rest

/-- `MD2::update`: fill the leftover buffer, compress it when full, then
consume the remaining input in 16-byte blocks and store the tail back into
the buffer. -/
def MD2.update (m : MD2) (input : List Nat) : MD2 :=
  let available := min input.length (16 - m.count)
  let buffer1 := m.buffer.take m.count ++ input.take available
    ++ m.buffer.drop (m.count + available)
  let count1 := m.count + available
  if count1 = 16 then
    let m1 := MD2._update { m with buffer := buffer1, count := count1 } buffer1
    let r := processBlocks m1 (input.drop available)
    { r.1 with buffer := r.2 ++ r.1.buffer.drop r.2.length, count := r.2.length }
  else
    { m with buffer := buffer1, count := count1 }

/-- `MD2::with_input`: a fresh engine with one `update` applied. -/
def MD2.with_input (input : List Nat) : MD2 :=
  MD2.new.update input

/-- The padded final block built by `finalize`:
`buffer[count..].fill(16 - count)` on the 16-byte buffer. -/
def MD2.paddedBuf (m : MD2) : List Nat :=
  m.buffer.take m.count ++ List.replicate (m.buffer.length - m.count) (16 - m.count)

/-- `MD2::finalize`: pad the buffer to a full block, compress it, compress
the checksum as one more block, and return the state as the digest. -/
def MD2.finalize (m : MD2) : List Nat :=
  let m1 := { m with buffer := m.paddedBuf }
  let m2 := m1._update m1.buffer
  let m3 := m2._update m2.checksum
  m3.state

/-- `impl Default for MD2`: `Self::new()`. -/
def MD2.default : MD2 := MD2.new

/-- The sixteen lowercase hex digit characters, in order. -/
def hexChars : List Char := "0123456789abcdef".data

/-- The two characters `format!("{:02x}", b)` produces for a byte `b`. -/
def byteHex (b : Nat) : List Char :=
  [hexChars.getD (b / 16) '0', hexChars.getD (b % 16) '0']

/-- `impl Display for MD2`: finalize a copy of the engine and write each
byte as two lowercase hex digits. -/
def MD2.toHex (m : MD2) : String :=
  m.finalize.foldl (fun s b => s ++ String.mk (byteHex b)) ""

/-- ASCII bytes of a string, for the known-answer vectors. -/
def strBytes (s : String) : List Nat := s.data.map Char.toNat

/-- Well-formedness of an engine: the three arrays hold exactly 16 bytes
and fewer than 16 buffer bytes are valid. -/
def MD2.WF (m : MD2) : Prop :=
  m.state.length = 16 ∧ m.checksum.length = 16 ∧ m.buffer.length = 16 ∧ m.count < 16

instance (m : MD2) : Decidable m.WF := by
  unfold MD2.WF
  infer_instance

/-- All entries of a list are byte values. -/
def IsBytes (l : List Nat) : Prop := ∀ b ∈ l, b < 256

instance (l : List Nat) : Decidable (IsBytes l) := by
  unfold IsBytes
  infer_instance

/-- Engines reachable from `new` through `update` calls with byte input. -/
inductive MD2.Reachable : MD2 → Prop
  | new : MD2.Reachable MD2.new
  | update {m : MD2} (input : List Nat) :
      MD2.Reachable m → IsBytes input → MD2.Reachable (m.update input)

/-- The byte-refined well-formedness invariant: well-formed, and every
digest-relevant cell holds a byte value. -/
def MD2.WFB (m : MD2) : Prop :=
  m.WF ∧ IsBytes m.state ∧ IsBytes m.checksum ∧ IsBytes (m.buffer.take m.count)

instance (m : MD2) : Decidable m.WFB := by
  unfold MD2.WFB
  infer_instance

/-- The digest-relevant part of an engine: everything `finalize` (and any
further `update`) can observe.  Bytes of `buffer` beyond `count` are dead. -/
def MD2.core (m : MD2) : List Nat × List Nat × Nat × List Nat × Nat :=
  (m.state, m.checksum, m.count, m.buffer.take m.count, m.buffer.length)

/-- `_update` guarded by the source's `debug_assert_eq!(input.len(), 16)`. -/
def MD2.updateBlockChecked (m : MD2) (input : List Nat) : Option MD2 :=
  if input.length = 16 then some (m._update input) else none

/-- The block loop of `update` with every internal compression call checked. -/
def processBlocksChecked (m : MD2) (rest : List Nat) : Option (MD2 × List Nat) :=
  if h : 16 ≤ rest.length then
    match m.updateBlockChecked (rest.take 16) with
    | some m' => processBlocksChecked m' (rest.drop 16)
    | none => none
  else
    some (m, rest)
termination_by rest.length
decreasing_by
  simp only [List.length_drop]
  omega

/-- `MD2::update` with every slice-bound and internal-contract check made
explicit: `buffer[count..count + available]`, `input[..available]`,
`input[offset..offset + 16]` (inside the loop), `buffer[..remaining]`, and
the 16-byte contract of every `_update` call.  Returns `none` when any
check fails. -/
def MD2.updateChecked (m : MD2) (input : List Nat) : Option MD2 :=
  let available := min input.length (16 - m.count)
  if m.count + available ≤ m.buffer.length ∧ available ≤ input.length then
    let buffer1 := m.buffer.take m.count ++ input.take available
      ++ m.buffer.drop (m.count + available)
    let count1 := m.count + available
    if count1 = 16 then
      match MD2.updateBlockChecked { m with buffer := buffer1, count := count1 } buffer1 with
      | some m1 =>
        match processBlocksChecked m1 (input.drop available) with
        | some r =>
          if r.2.length ≤ r.1.buffer.length then
            some { r.1 with buffer := r.2 ++ r.1.buffer.drop r.2.length, count := r.2.length }
          else none
        | none => none
      | none => none
    else
      some { m with buffer := buffer1, count := count1 }
  else none

/-- `MD2::finalize` with the `buffer[count..]` bound and the 16-byte
contract of both `_update` calls made explicit. -/
def MD2.finalizeChecked (m : MD2) : Option (List Nat) :=
  if m.count ≤ m.buffer.length then
    match MD2.updateBlockChecked { m with buffer := m.paddedBuf } m.paddedBuf with
    | some m2 =>
      match m2.updateBlockChecked m2.checksum with
      | some m3 => some m3.state
      | none => none
    | none => none
  else none

/-! ### Spec-side definitions

The following definitions are written from the specification's wording
(index-based loops over the scratch array), to be compared against the
source-translated definitions above. -/

/-- Spec wording for the scratch array: position `i` holds `state[i]` for
`i` below 16, `input[i - 16]` for `i` below 32, and
`state[i - 32] XOR input[i - 32]` otherwise. -/
def specBuildX (state input : List Nat) : List Nat :=
  (List.range 48).map (fun i =>
    if i < 16 then state.getD i 0
    else if i < 32 then input.getD (i - 16) 0
    else state.getD (i - 32) 0 ^^^ input.getD (i - 32) 0)

/-- Spec wording for one position `k` of a round: replace `x[k]` by
`x[k] XOR S[t]` and set `t` to the new `x[k]`. -/
def specStep (p : List Nat × Nat) (k : Nat) : List Nat × Nat :=
  let v := p.1.getD k 0 ^^^ S.getD p.2 0
  (p.1.set k v, v)

/-- Spec wording for one round: for each `k` in 0..48 in order, apply the
position step. -/
def specInner (x : List Nat) (t : Nat) : List Nat × Nat :=
  (List.range 48).foldl specStep (x, t)

/-- Spec wording for the 18 rounds: `t` starts at 0; after round `j` the
index becomes `(t + j) mod 256`. -/
def specRounds (x : List Nat) : List Nat :=
  ((List.range 18).foldl (fun p j =>
    let q := specInner p.1 p.2
    (q.1, (q.2 + j) % 256)) (x, 0)).1

/-- Spec wording for the checksum chaining value: `l` starts as the given
carry and after step `j` equals the just-updated `checksum[j]`. -/
def lSpec (l0 : Nat) (oldcs input : List Nat) : Nat → Nat
  | 0 => l0
  | j + 1 => oldcs.getD j 0 ^^^ S.getD (input.getD j 0 ^^^ lSpec l0 oldcs input j) 0

/-- Spec wording for the hex rendering: each digest byte contributes its
high then its low hex digit, lowercase. -/
def specHexDigit (d : Nat) : Char :=
  if d < 10 then Char.ofNat (48 + d) else Char.ofNat (87 + d)

/-- Spec-side hex encoding of a byte list. -/
def specHexEncode (bytes : List Nat) : String :=
  String.mk (bytes.flatMap (fun b => [specHexDigit (b / 16), specHexDigit (b % 16)]))

/-! ### Length and field lemmas -/

theorem roundPass_length (t : Nat) (x : List Nat) : (roundPass t x).1.length = x.length := by
  induction x generalizing t with
  | nil => rfl
  | cons a rest ih => simp [roundPass, ih]

theorem roundsLoop_length (x : List Nat) : (roundsLoop x).length = x.length := by
  have h : ∀ (l : List Nat) (p : List Nat × Nat),
      ((l.foldl (fun p j =>
        let q := roundPass p.2 p.1
        (q.1, (q.2 + j) % 256)) p).1).length = p.1.length := by
    intro l
    induction l with
    | nil => intro p; rfl
    | cons j l ih =>
      intro p
      rw [List.foldl_cons, ih]
      exact roundPass_length _ _
  exact h _ _

theorem csLoop_length (l : Nat) (cs inp : List Nat) : (csLoop l cs inp).length = cs.length := by
  induction cs generalizing l inp with
  | nil => cases inp <;> rfl
  | cons c cs ih =>
    cases inp with
    | nil => rfl
    | cons i inp => simp [csLoop, ih]

theorem update_block_buffer (m : MD2) (input : List Nat) : (m._update input).buffer = m.buffer := by
  simp only [MD2._update]

theorem update_block_count (m : MD2) (input : List Nat) : (m._update input).count = m.count := by
  simp only [MD2._update]

theorem update_block_state (m : MD2) (input : List Nat) :
    (m._update input).state =
      (roundsLoop (m.state ++ input ++ List.zipWith (fun a b => a ^^^ b) m.state input)).take 16 := by
  simp only [MD2._update]

theorem update_block_checksum (m : MD2) (input : List Nat) :
    (m._update input).checksum = csLoop (m.checksum.getD 15 0) m.checksum input := by
  simp only [MD2._update]

theorem update_block_state_length (m : MD2) (input : List Nat)
    (hs : m.state.length = 16) (hi : input.length = 16) :
    (m._update input).state.length = 16 := by
  rw [update_block_state, List.length_take, roundsLoop_length]
  simp [List.length_append, List.length_zipWith, hs, hi]

theorem update_block_checksum_length (m : MD2) (input : List Nat) :
    (m._update input).checksum.length = m.checksum.length :=
  csLoop_length _ _ _

theorem update_block_sc_congr (m m' : MD2) (input : List Nat)
    (hs : m.state = m'.state) (hc : m.checksum = m'.checksum) :
    (m._update input).state = (m'._update input).state ∧
    (m._update input).checksum = (m'._update input).checksum := by
  rw [update_block_state, update_block_state, update_block_checksum, update_block_checksum,
    hs, hc]
  exact ⟨rfl, rfl⟩

/-! ### processBlocks lemmas -/

theorem pbGo_congr : ∀ (fuel fuel' : Nat) (m : MD2) (rest : List Nat),
    rest.length ≤ fuel → rest.length ≤ fuel' → pbGo fuel m rest = pbGo fuel' m rest := by
  intro fuel
  induction fuel with
  | zero =>
    intro fuel' m rest h h'
    cases fuel' with
    | zero => rfl
    | succ f' =>
      show (m, rest) = pbGo (f' + 1) m rest
      simp only [pbGo]
      rw [if_neg (by omega)]
  | succ f ih =>
    intro fuel' m rest h h'
    by_cases hg : 16 ≤ rest.length
    · cases fuel' with
      | zero => omega
      | succ f' =>
        simp only [pbGo]
        rw [if_pos hg, if_pos hg]
        exact ih f' _ _ (by rw [List.length_drop]; omega) (by rw [List.length_drop]; omega)
    · cases fuel' with
      | zero =>
        simp only [pbGo]
        rw [if_neg hg]
      | succ f' =>
        simp only [pbGo]
        rw [if_neg hg, if_neg hg]

theorem processBlocks_induct (motive : MD2 → List Nat → Prop)
    (h1 : ∀ (m : MD2) (rest : List Nat), 16 ≤ rest.length →
      motive (m._update (rest.take 16)) (rest.drop 16) → motive m rest)
    (h2 : ∀ (m : MD2) (rest : List Nat), ¬ 16 ≤ rest.length → motive m rest) :
    ∀ (m : MD2) (rest : List Nat), motive m rest := by
  have key : ∀ (n : Nat) (m : MD2) (rest : List Nat), rest.length ≤ n → motive m rest := by
    intro n
    induction n with
    | zero => intro m rest h; exact h2 m rest (by omega)
    | succ k ih =>
      intro m rest h
      by_cases hg : 16 ≤ rest.length
      · exact h1 m rest hg (ih _ _ (by rw [List.length_drop]; omega))
      · exact h2 m rest hg
  exact fun m rest => key rest.length m rest (le_refl _)

theorem processBlocks_eq_pos (m : MD2) (rest : List Nat) (h : 16 ≤ rest.length) :
    processBlocks m rest = processBlocks (m._update (rest.take 16)) (rest.drop 16) := by
  rw [processBlocks, processBlocks]
  rw [pbGo_congr rest.length (rest.length - 1 + 1) m rest (le_refl _) (by omega)]
  simp only [pbGo]
  rw [if_pos h, List.length_drop]
  exact pbGo_congr (rest.length - 1) (rest.length - 16) _ _
    (by rw [List.length_drop]; omega) (by rw [List.length_drop])

theorem processBlocks_eq_neg (m : MD2) (rest : List Nat) (h : ¬ 16 ≤ rest.length) :
    processBlocks m rest = (m, rest) := by
  rw [processBlocks]
  cases hrl : rest.length with
  | zero => rfl
  | succ n =>
    simp only [pbGo]
    rw [if_neg h]

theorem processBlocks_rem_lt (m : MD2) (rest : List Nat) :
    (processBlocks m rest).2.length < 16 := by
  induction m, rest using processBlocks_induct with
  | h1 m rest h ih =>
    rw [processBlocks_eq_pos m rest h]
    exact ih
  | h2 m rest h =>
    rw [processBlocks_eq_neg m rest h]
    show rest.length < 16
    omega

theorem processBlocks_fields (m : MD2) (rest : List Nat) :
    (processBlocks m rest).1.buffer = m.buffer ∧
    (processBlocks m rest).1.count = m.count ∧
    (processBlocks m rest).1.checksum.length = m.checksum.length ∧
    (m.state.length = 16 → (processBlocks m rest).1.state.length = 16) := by
  induction m, rest using processBlocks_induct with
  | h1 m rest h ih =>
    rw [processBlocks_eq_pos m rest h]
    refine ⟨ih.1.trans (update_block_buffer _ _), ih.2.1.trans (update_block_count _ _),
      ih.2.2.1.trans (update_block_checksum_length _ _), ?_⟩
    intro hs
    exact ih.2.2.2 (update_block_state_length _ _ hs (by rw [List.length_take]; omega))
  | h2 m rest h =>
    rw [processBlocks_eq_neg m rest h]
    exact ⟨rfl, rfl, rfl, fun hs => hs⟩

theorem processBlocks_sc_congr (m : MD2) (rest : List Nat) :
    ∀ (m' : MD2), m.state = m'.state → m.checksum = m'.checksum →
    (processBlocks m rest).1.state = (processBlocks m' rest).1.state ∧
    (processBlocks m rest).1.checksum = (processBlocks m' rest).1.checksum ∧
    (processBlocks m rest).2 = (processBlocks m' rest).2 := by
  induction m, rest using processBlocks_induct with
  | h1 m rest h ih =>
    intro m' hs hc
    rw [processBlocks_eq_pos m rest h, processBlocks_eq_pos m' rest h]
    have hblk := update_block_sc_congr m m' (rest.take 16) hs hc
    exact ih _ hblk.1 hblk.2
  | h2 m rest h =>
    intro m' hs hc
    rw [processBlocks_eq_neg m rest h, processBlocks_eq_neg m' rest h]
    exact ⟨hs, hc, rfl⟩

theorem processBlocks_append (m : MD2) (a b : List Nat) :
    processBlocks (processBlocks m a).1 ((processBlocks m a).2 ++ b) =
      processBlocks m (a ++ b) := by
  induction m, a using processBlocks_induct with
  | h1 m a h ih =>
    rw [processBlocks_eq_pos m a h]
    have hab : 16 ≤ (a ++ b).length := by
      rw [List.length_append]; omega
    rw [processBlocks_eq_pos m (a ++ b) hab, List.take_append_of_le_length h,
      List.drop_append_of_le_length h]
    exact ih
  | h2 m a h =>
    rw [processBlocks_eq_neg m a h]

/-! ### The normal form of `update`: absorbing carried bytes plus input -/

theorem update_core_eq (m : MD2) (xs : List Nat) (h : m.WF) :
    (m.update xs).state = (processBlocks m (m.buffer.take m.count ++ xs)).1.state ∧
    (m.update xs).checksum = (processBlocks m (m.buffer.take m.count ++ xs)).1.checksum ∧
    (m.update xs).count = (processBlocks m (m.buffer.take m.count ++ xs)).2.length ∧
    (m.update xs).buffer.take (m.update xs).count
      = (processBlocks m (m.buffer.take m.count ++ xs)).2 ∧
    (m.update xs).buffer.length = 16 := by
  obtain ⟨hsl, hcl, hbl, hcnt⟩ := h
  have hminle1 : min xs.length (16 - m.count) ≤ xs.length := Nat.min_le_left _ _
  have hminle2 : min xs.length (16 - m.count) ≤ 16 - m.count := Nat.min_le_right _ _
  have htklen : (m.buffer.take m.count).length = m.count := by
    rw [List.length_take]; omega
  by_cases hfull : m.count + min xs.length (16 - m.count) = 16
  · have h16 : (m.buffer.take m.count).length + min xs.length (16 - m.count) = 16 := by omega
    have hdropnil : m.buffer.drop (m.count + min xs.length (16 - m.count)) = [] :=
      List.drop_eq_nil_of_le (by omega)
    have hb1 : m.buffer.take m.count ++ xs.take (min xs.length (16 - m.count))
        ++ m.buffer.drop (m.count + min xs.length (16 - m.count))
        = (m.buffer.take m.count ++ xs).take 16 := by
      have ht := @List.take_append Nat (m.buffer.take m.count) xs (min xs.length (16 - m.count))
      rw [hdropnil, List.append_nil, ← ht, h16]
    have hdrop : (m.buffer.take m.count ++ xs).drop 16
        = xs.drop (min xs.length (16 - m.count)) := by
      have hd := @List.drop_append Nat (m.buffer.take m.count) xs (min xs.length (16 - m.count))
      rw [← hd, h16]
    have h16len : 16 ≤ (m.buffer.take m.count ++ xs).length := by
      rw [List.length_append]; omega
    have hpb := processBlocks_eq_pos m (m.buffer.take m.count ++ xs) h16len
    have hB1len : (m.buffer.take m.count ++ xs.take (min xs.length (16 - m.count))
        ++ m.buffer.drop (m.count + min xs.length (16 - m.count))).length = 16 := by
      simp only [List.length_append, List.length_take, List.length_drop, hbl]
      omega
    simp only [MD2.update]
    rw [if_pos hfull]
    rw [hpb, hdrop, ← hb1]
    have hsc := processBlocks_sc_congr
      (MD2._update { m with
          buffer := m.buffer.take m.count ++ xs.take (min xs.length (16 - m.count))
            ++ m.buffer.drop (m.count + min xs.length (16 - m.count)),
          count := m.count + min xs.length (16 - m.count) }
        (m.buffer.take m.count ++ xs.take (min xs.length (16 - m.count))
          ++ m.buffer.drop (m.count + min xs.length (16 - m.count))))
      (xs.drop (min xs.length (16 - m.count)))
      (m._update (m.buffer.take m.count ++ xs.take (min xs.length (16 - m.count))
        ++ m.buffer.drop (m.count + min xs.length (16 - m.count))))
      (update_block_sc_congr _ m _ rfl rfl).1
      (update_block_sc_congr _ m _ rfl rfl).2
    refine ⟨hsc.1, hsc.2.1, congrArg List.length hsc.2.2, ?_, ?_⟩
    · rw [List.take_left]
      exact hsc.2.2
    · rw [List.length_append, List.length_drop]
      have hfld := (processBlocks_fields
        (MD2._update { m with
            buffer := m.buffer.take m.count ++ xs.take (min xs.length (16 - m.count))
              ++ m.buffer.drop (m.count + min xs.length (16 - m.count)),
            count := m.count + min xs.length (16 - m.count) }
          (m.buffer.take m.count ++ xs.take (min xs.length (16 - m.count))
            ++ m.buffer.drop (m.count + min xs.length (16 - m.count))))
        (xs.drop (min xs.length (16 - m.count)))).1
      rw [hfld, update_block_buffer]
      have hrlt := processBlocks_rem_lt
        (MD2._update { m with
            buffer := m.buffer.take m.count ++ xs.take (min xs.length (16 - m.count))
              ++ m.buffer.drop (m.count + min xs.length (16 - m.count)),
            count := m.count + min xs.length (16 - m.count) }
          (m.buffer.take m.count ++ xs.take (min xs.length (16 - m.count))
            ++ m.buffer.drop (m.count + min xs.length (16 - m.count))))
        (xs.drop (min xs.length (16 - m.count)))
      show _ + ((m.buffer.take m.count ++ xs.take (min xs.length (16 - m.count))
        ++ m.buffer.drop (m.count + min xs.length (16 - m.count))).length - _) = 16
      omega
  · have havail : min xs.length (16 - m.count) = xs.length := by
      rcases min_choice xs.length (16 - m.count) with h1 | h1 <;> omega
    have hsmall : (m.buffer.take m.count ++ xs).length < 16 := by
      rw [List.length_append]; omega
    rw [processBlocks_eq_neg m (m.buffer.take m.count ++ xs) (by omega)]
    simp only [MD2.update]
    rw [if_neg hfull]
    have hKlen : m.count + min xs.length (16 - m.count)
        = (m.buffer.take m.count ++ xs).length := by
      rw [List.length_append]; omega
    refine ⟨rfl, rfl, hKlen, ?_, ?_⟩
    · show (m.buffer.take m.count ++ xs.take (min xs.length (16 - m.count))
        ++ m.buffer.drop (m.count + min xs.length (16 - m.count))).take
          (m.count + min xs.length (16 - m.count)) = m.buffer.take m.count ++ xs
      rw [havail, List.take_length]
      have hKlen2 : m.count + xs.length = (m.buffer.take m.count ++ xs).length := by
        rw [List.length_append]; omega
      rw [hKlen2, List.take_left]
    · show (m.buffer.take m.count ++ xs.take (min xs.length (16 - m.count))
        ++ m.buffer.drop (m.count + min xs.length (16 - m.count))).length = 16
      simp only [List.length_append, List.length_take, List.length_drop, hbl]
      omega

theorem update_WF (m : MD2) (xs : List Nat) (h : m.WF) : (m.update xs).WF := by
  have c := update_core_eq m xs h
  obtain ⟨hsl, hcl, hbl, hcnt⟩ := h
  refine ⟨?_, ?_, c.2.2.2.2, ?_⟩
  · rw [c.1]
    exact (processBlocks_fields m _).2.2.2 hsl
  · rw [c.2.1, (processBlocks_fields m _).2.2.1]
    exact hcl
  · rw [c.2.2.1]
    exact processBlocks_rem_lt m _

theorem finalize_congr (m m' : MD2) (h : m.core = m'.core) : m.finalize = m'.finalize := by
  simp only [MD2.core, Prod.mk.injEq] at h
  obtain ⟨hs, hc, hcnt, htake, hlen⟩ := h
  simp only [MD2.finalize, MD2.paddedBuf]
  rw [htake, hlen, hcnt, hs, hc]

theorem update_core_congr (m m' : MD2) (xs : List Nat) (hw : m.WF) (hw' : m'.WF)
    (h : m.core = m'.core) : (m.update xs).core = (m'.update xs).core := by
  have c := update_core_eq m xs hw
  have c' := update_core_eq m' xs hw'
  simp only [MD2.core, Prod.mk.injEq] at h ⊢
  obtain ⟨hs, hc, hcnt, htake, hlen⟩ := h
  have hsc := processBlocks_sc_congr m (m.buffer.take m.count ++ xs) m' hs hc
  have e1 : (processBlocks m' (m.buffer.take m.count ++ xs)).1.state
      = (processBlocks m' (m'.buffer.take m'.count ++ xs)).1.state := by rw [htake]
  have e2 : (processBlocks m' (m.buffer.take m.count ++ xs)).1.checksum
      = (processBlocks m' (m'.buffer.take m'.count ++ xs)).1.checksum := by rw [htake]
  have e3 : (processBlocks m' (m.buffer.take m.count ++ xs)).2
      = (processBlocks m' (m'.buffer.take m'.count ++ xs)).2 := by rw [htake]
  exact ⟨c.1.trans ((hsc.1.trans e1).trans c'.1.symm),
    c.2.1.trans ((hsc.2.1.trans e2).trans c'.2.1.symm),
    c.2.2.1.trans ((congrArg List.length (hsc.2.2.trans e3)).trans c'.2.2.1.symm),
    c.2.2.2.1.trans ((hsc.2.2.trans e3).trans c'.2.2.2.1.symm),
    c.2.2.2.2.trans c'.2.2.2.2.symm⟩

theorem update_append_core (m : MD2) (xs ys : List Nat) (h : m.WF) :
    ((m.update xs).update ys).core = (m.update (xs ++ ys)).core := by
  have h1 := update_WF m xs h
  have c1 := update_core_eq m xs h
  have c2 := update_core_eq (m.update xs) ys h1
  have c3 := update_core_eq m (xs ++ ys) h
  rw [c1.2.2.2.1] at c2
  have hsc := processBlocks_sc_congr (m.update xs)
    ((processBlocks m (m.buffer.take m.count ++ xs)).2 ++ ys)
    (processBlocks m (m.buffer.take m.count ++ xs)).1 c1.1 c1.2.1
  have happ := processBlocks_append m (m.buffer.take m.count ++ xs) ys
  rw [List.append_assoc] at happ
  simp only [MD2.core, Prod.mk.injEq]
  exact ⟨c2.1.trans (hsc.1.trans ((congrArg (fun p => p.1.state) happ).trans c3.1.symm)),
    c2.2.1.trans (hsc.2.1.trans ((congrArg (fun p => p.1.checksum) happ).trans c3.2.1.symm)),
    c2.2.2.1.trans ((congrArg List.length hsc.2.2).trans
      ((congrArg (fun p => p.2.length) happ).trans c3.2.2.1.symm)),
    c2.2.2.2.1.trans (hsc.2.2.trans ((congrArg (fun p => p.2) happ).trans c3.2.2.2.1.symm)),
    c2.2.2.2.2.trans c3.2.2.2.2.symm⟩

theorem update_nil_core (m : MD2) (h : m.WF) : (m.update []).core = m.core := by
  have c := update_core_eq m [] h
  obtain ⟨hsl, hcl, hbl, hcnt⟩ := h
  have htklen : (m.buffer.take m.count).length = m.count := by
    rw [List.length_take]; omega
  have hneg : ¬ 16 ≤ (m.buffer.take m.count ++ ([] : List Nat)).length := by
    rw [List.append_nil]; omega
  rw [processBlocks_eq_neg m _ hneg] at c
  have e1 : (m.update []).state = m.state := c.1
  have e2 : (m.update []).checksum = m.checksum := c.2.1
  have e3 : (m.update []).count = (m.buffer.take m.count ++ ([] : List Nat)).length := c.2.2.1
  rw [List.append_nil, htklen] at e3
  have e4 : (m.update []).buffer.take (m.update []).count
      = m.buffer.take m.count ++ ([] : List Nat) := c.2.2.2.1
  rw [List.append_nil] at e4
  simp only [MD2.core, Prod.mk.injEq]
  exact ⟨e1, e2, e3, e4, c.2.2.2.2.trans hbl.symm⟩

theorem foldl_update_core (cs : List (List Nat)) :
    ∀ (m : MD2), m.WF → (cs.foldl MD2.update m).core = (m.update cs.flatten).core := by
  induction cs with
  | nil =>
    intro m h
    rw [List.foldl_nil, List.flatten_nil]
    exact (update_nil_core m h).symm
  | cons chunk rest ih =>
    intro m h
    rw [List.foldl_cons, List.flatten_cons]
    rw [ih (m.update chunk) (update_WF m chunk h)]
    exact update_append_core m chunk rest.flatten h

/-! ### The indexed spec loops agree with the source loops -/

theorem specStep_zero (a : Nat) (y : List Nat) (t : Nat) :
    specStep (a :: y, t) 0 = ((a ^^^ S.getD t 0) :: y, a ^^^ S.getD t 0) := by
  simp only [specStep, List.getD_cons_zero, List.set_cons_zero]

theorem specStep_cons_succ (a : Nat) (y : List Nat) (t k : Nat) :
    specStep (a :: y, t) (k + 1)
      = (a :: (specStep (y, t) k).1, (specStep (y, t) k).2) := by
  simp only [specStep, List.getD_cons_succ, List.set_cons_succ]

theorem foldl_specStep_map_succ (ks : List Nat) :
    ∀ (y : List Nat) (t a : Nat),
    (ks.map Nat.succ).foldl specStep (a :: y, t)
      = (a :: (ks.foldl specStep (y, t)).1, (ks.foldl specStep (y, t)).2) := by
  induction ks with
  | nil => intro y t a; rfl
  | cons k ks ih =>
    intro y t a
    rw [List.map_cons, List.foldl_cons, List.foldl_cons, Nat.succ_eq_add_one,
      specStep_cons_succ, ih]

theorem rangeFold_specStep (x : List Nat) : ∀ (t : Nat),
    (List.range x.length).foldl specStep (x, t) = roundPass t x := by
  induction x with
  | nil => intro t; rfl
  | cons a rest ih =>
    intro t
    rw [List.length_cons, List.range_succ_eq_map, List.foldl_cons, specStep_zero,
      foldl_specStep_map_succ, ih]
    simp only [roundPass]

theorem specInner_eq_roundPass (x : List Nat) (t : Nat) (h : x.length = 48) :
    specInner x t = roundPass t x := by
  rw [specInner, ← h, rangeFold_specStep]

theorem foldl_congr_inv {α β : Type} (P : α → Prop) (f g : α → β → α)
    (hfg : ∀ a b, P a → f a b = g a b) (hP : ∀ a b, P a → P (g a b)) :
    ∀ (l : List β) (a : α), P a → l.foldl f a = l.foldl g a := by
  intro l
  induction l with
  | nil => intro a ha; rfl
  | cons b l ih =>
    intro a ha
    rw [List.foldl_cons, List.foldl_cons, hfg a b ha]
    exact ih _ (hP a b ha)

theorem specRounds_eq_roundsLoop (x : List Nat) (h : x.length = 48) :
    specRounds x = roundsLoop x := by
  rw [specRounds, roundsLoop]
  rw [foldl_congr_inv (fun p => p.1.length = 48)
    (fun p j =>
      let q := specInner p.1 p.2
      (q.1, (q.2 + j) % 256))
    (fun p j =>
      let q := roundPass p.2 p.1
      (q.1, (q.2 + j) % 256))
    (fun a b ha => by
      show ((specInner a.1 a.2).1, ((specInner a.1 a.2).2 + b) % 256)
        = ((roundPass a.2 a.1).1, ((roundPass a.2 a.1).2 + b) % 256)
      rw [specInner_eq_roundPass a.1 a.2 ha])
    (fun a b ha => by
      show ((roundPass a.2 a.1).1).length = 48
      rw [roundPass_length, ha])
    (List.range 18) (x, 0) h]

theorem specBuildX_length (state input : List Nat) : (specBuildX state input).length = 48 := by
  simp [specBuildX]

theorem specBuildX_eq (state input : List Nat) (hs : state.length = 16) (hi : input.length = 16) :
    specBuildX state input
      = state ++ input ++ List.zipWith (fun a b => a ^^^ b) state input := by
  have h32 : (state ++ input).length = 32 := by
    rw [List.length_append, hs, hi]
  have hzlen : (List.zipWith (fun a b => a ^^^ b) state input).length = 16 := by
    rw [List.length_zipWith, hs, hi, Nat.min_self]
  apply List.ext_getElem
  · rw [specBuildX_length, List.length_append, h32, hzlen]
  · intro n h1 h2
    rw [specBuildX_length] at h1
    simp only [specBuildX, List.getElem_map, List.getElem_range]
    by_cases hn1 : n < 16
    · rw [if_pos hn1]
      rw [List.getElem_append_left (by omega : n < (state ++ input).length),
        List.getElem_append_left (by omega : n < state.length)]
      exact List.getD_eq_getElem state 0 (by omega)
    · rw [if_neg hn1]
      by_cases hn2 : n < 32
      · rw [if_pos hn2]
        rw [List.getElem_append_left (by omega : n < (state ++ input).length),
          List.getElem_append_right (by omega : state.length ≤ n)]
        simp only [hs]
        exact List.getD_eq_getElem input 0 (by omega)
      · rw [if_neg hn2]
        rw [List.getElem_append_right (by omega : (state ++ input).length ≤ n)]
        rw [List.getElem_zipWith]
        simp only [h32]
        have e1 := List.getD_eq_getElem state 0 (show n - 32 < state.length by omega)
        have e2 := List.getD_eq_getElem input 0 (show n - 32 < input.length by omega)
        rw [← e1, ← e2]

theorem lSpec_zero (l0 : Nat) (oldcs input : List Nat) : lSpec l0 oldcs input 0 = l0 := rfl

theorem lSpec_succ (l0 : Nat) (oldcs input : List Nat) (j : Nat) :
    lSpec l0 oldcs input (j + 1)
      = oldcs.getD j 0 ^^^ S.getD (input.getD j 0 ^^^ lSpec l0 oldcs input j) 0 := rfl

theorem lSpec_shift (cs inp : List Nat) : ∀ (j l c i : Nat),
    lSpec l (c :: cs) (i :: inp) (j + 1) = lSpec (c ^^^ S.getD (i ^^^ l) 0) cs inp j := by
  intro j
  induction j with
  | zero =>
    intro l c i
    rw [lSpec_succ, lSpec_zero, lSpec_zero, List.getD_cons_zero, List.getD_cons_zero]
  | succ j ih =>
    intro l c i
    rw [lSpec_succ, ih, List.getD_cons_succ, List.getD_cons_succ, lSpec_succ]

theorem csLoop_getD (j : Nat) : ∀ (cs inp : List Nat) (l : Nat),
    j < cs.length → j < inp.length →
    (csLoop l cs inp).getD j 0
      = cs.getD j 0 ^^^ S.getD (inp.getD j 0 ^^^ lSpec l cs inp j) 0 := by
  induction j with
  | zero =>
    intro cs inp l hc hi
    cases cs with
    | nil => exact absurd hc (Nat.not_lt_zero 0)
    | cons c cs =>
      cases inp with
      | nil => exact absurd hi (Nat.not_lt_zero 0)
      | cons i inp =>
        simp only [csLoop, List.getD_cons_zero, lSpec_zero]
  | succ j ih =>
    intro cs inp l hc hi
    cases cs with
    | nil => exact absurd hc (Nat.not_lt_zero _)
    | cons c cs =>
      cases inp with
      | nil => exact absurd hi (Nat.not_lt_zero _)
      | cons i inp =>
        simp only [csLoop, List.getD_cons_succ]
        rw [ih cs inp _ (by simpa using hc) (by simpa using hi), lSpec_shift]

/-! ### The checked operations succeed on well-formed engines -/

theorem updateBlockChecked_eq (m : MD2) (input : List Nat) (h : input.length = 16) :
    m.updateBlockChecked input = some (m._update input) := by
  rw [MD2.updateBlockChecked, if_pos h]

theorem processBlocksChecked_eq_pos (m : MD2) (rest : List Nat) (h : 16 ≤ rest.length) :
    processBlocksChecked m rest
      = processBlocksChecked (m._update (rest.take 16)) (rest.drop 16) := by
  conv_lhs => rw [processBlocksChecked]
  rw [dif_pos h, updateBlockChecked_eq m (rest.take 16) (by rw [List.length_take]; omega)]

theorem processBlocksChecked_eq_neg (m : MD2) (rest : List Nat) (h : ¬ 16 ≤ rest.length) :
    processBlocksChecked m rest = some (m, rest) := by
  conv_lhs => rw [processBlocksChecked]
  rw [dif_neg h]

theorem processBlocksChecked_eq (m : MD2) (rest : List Nat) :
    processBlocksChecked m rest = some (processBlocks m rest) := by
  induction m, rest using processBlocks_induct with
  | h1 m rest h ih =>
    rw [processBlocksChecked_eq_pos m rest h, processBlocks_eq_pos m rest h, ih]
  | h2 m rest h =>
    rw [processBlocksChecked_eq_neg m rest h, processBlocks_eq_neg m rest h]

theorem update_tail_check (m1 : MD2) (rest : List Nat) (hb : m1.buffer.length = 16) :
    (processBlocks m1 rest).2.length ≤ (processBlocks m1 rest).1.buffer.length := by
  rw [(processBlocks_fields m1 rest).1, hb]
  exact le_of_lt (processBlocks_rem_lt m1 rest)

theorem updateChecked_eq (m : MD2) (input : List Nat) (h : m.WF) :
    m.updateChecked input = some (m.update input) := by
  obtain ⟨hsl, hcl, hbl, hcnt⟩ := h
  have hminle1 : min input.length (16 - m.count) ≤ input.length := Nat.min_le_left _ _
  have hminle2 : min input.length (16 - m.count) ≤ 16 - m.count := Nat.min_le_right _ _
  simp only [MD2.updateChecked, MD2.update]
  rw [if_pos (show m.count + min input.length (16 - m.count) ≤ m.buffer.length
      ∧ min input.length (16 - m.count) ≤ input.length from ⟨by omega, hminle1⟩)]
  by_cases hfull : m.count + min input.length (16 - m.count) = 16
  · rw [if_pos hfull]
    have hB1len : (m.buffer.take m.count ++ input.take (min input.length (16 - m.count))
        ++ m.buffer.drop (m.count + min input.length (16 - m.count))).length = 16 := by
      simp only [List.length_append, List.length_take, List.length_drop, hbl]
      omega
    simp only [updateBlockChecked_eq _ _ hB1len, processBlocksChecked_eq]
    rw [if_pos (update_tail_check _ _ (by
      rw [update_block_buffer]
      exact hB1len))]
    rw [if_pos hfull]
  · rw [if_neg hfull, if_neg hfull]

theorem paddedBuf_length (m : MD2) (hbl : m.buffer.length = 16) (hcnt : m.count ≤ 16) :
    m.paddedBuf.length = 16 := by
  rw [MD2.paddedBuf, List.length_append, List.length_take, List.length_replicate, hbl]
  omega

theorem finalizeChecked_eq (m : MD2) (h : m.WF) :
    m.finalizeChecked = some m.finalize := by
  obtain ⟨hsl, hcl, hbl, hcnt⟩ := h
  have hpadlen : m.paddedBuf.length = 16 := paddedBuf_length m hbl (by omega)
  have hck : (MD2._update { m with buffer := m.paddedBuf } m.paddedBuf).checksum.length = 16 := by
    rw [update_block_checksum_length]
    exact hcl
  simp only [MD2.finalizeChecked, MD2.finalize]
  rw [if_pos (show m.count ≤ m.buffer.length from by omega)]
  simp only [updateBlockChecked_eq _ _ hpadlen]
  simp only [updateBlockChecked_eq _ _ hck]

/-! ### Byte-range invariants -/

theorem xor_lt_256 (a b : Nat) (ha : a < 256) (hb : b < 256) : a ^^^ b < 256 := by
  have e : (256 : Nat) = 2 ^ 8 := by norm_num
  rw [e] at ha hb ⊢
  exact Nat.xor_lt_two_pow ha hb

theorem S_bytes : IsBytes S := by decide

theorem getD_lt_256 (l : List Nat) (hl : IsBytes l) (n d : Nat) (hd : d < 256) :
    l.getD n d < 256 := by
  rcases lt_or_ge n l.length with h | h
  · rw [List.getD_eq_getElem l d h]
    exact hl _ (List.getElem_mem h)
  · rw [List.getD_eq_default l d h]
    exact hd

theorem bytes_take (l : List Nat) (h : IsBytes l) (n : Nat) : IsBytes (l.take n) :=
  fun b hb => h b (List.mem_of_mem_take hb)

theorem bytes_drop (l : List Nat) (h : IsBytes l) (n : Nat) : IsBytes (l.drop n) :=
  fun b hb => h b (List.mem_of_mem_drop hb)

theorem bytes_append (a b : List Nat) (ha : IsBytes a) (hb : IsBytes b) : IsBytes (a ++ b) :=
  fun x hx => (List.mem_append.mp hx).elim (ha x) (hb x)

theorem bytes_replicate (n v : Nat) (hv : v < 256) : IsBytes (List.replicate n v) :=
  fun b hb => List.eq_of_mem_replicate hb ▸ hv

theorem bytes_zipWith (a : List Nat) : ∀ (b : List Nat), IsBytes a → IsBytes b →
    IsBytes (List.zipWith (fun x y => x ^^^ y) a b) := by
  induction a with
  | nil => intro b _ _ x hx; exact absurd hx (List.not_mem_nil x)
  | cons u a ih =>
    intro b hab hbb
    cases b with
    | nil => intro x hx; exact absurd hx (List.not_mem_nil x)
    | cons v b =>
      intro x hx
      rw [List.zipWith_cons_cons] at hx
      rcases List.mem_cons.mp hx with rfl | hx
      · exact xor_lt_256 u v (hab u (List.mem_cons_self u a)) (hbb v (List.mem_cons_self v b))
      · exact ih b (fun y hy => hab y (List.mem_cons.mpr (Or.inr hy)))
          (fun y hy => hbb y (List.mem_cons.mpr (Or.inr hy))) x hx

theorem roundPass_bytes (x : List Nat) : ∀ (t : Nat), IsBytes x → IsBytes (roundPass t x).1 := by
  induction x with
  | nil => intro t _ b hb; exact absurd hb (List.not_mem_nil b)
  | cons a rest ih =>
    intro t hx b hb
    simp only [roundPass] at hb
    rcases List.mem_cons.mp hb with rfl | hb
    · exact xor_lt_256 _ _ (hx a (List.mem_cons_self a rest))
        (getD_lt_256 S S_bytes t 0 (by omega))
    · exact ih (a ^^^ S.getD t 0) (fun y hy => hx y (List.mem_cons.mpr (Or.inr hy))) b hb

theorem roundsLoop_bytes (x : List Nat) (hx : IsBytes x) : IsBytes (roundsLoop x) := by
  have h : ∀ (l : List Nat) (p : List Nat × Nat), IsBytes p.1 →
      IsBytes ((l.foldl (fun p j =>
        let q := roundPass p.2 p.1
        (q.1, (q.2 + j) % 256)) p).1) := by
    intro l
    induction l with
    | nil => exact fun p hp => hp
    | cons j l ih =>
      intro p hp
      rw [List.foldl_cons]
      exact ih _ (roundPass_bytes p.1 p.2 hp)
  exact h (List.range 18) (x, 0) hx

theorem csLoop_bytes (cs : List Nat) : ∀ (inp : List Nat) (l : Nat), IsBytes cs →
    IsBytes (csLoop l cs inp) := by
  induction cs with
  | nil =>
    intro inp l _
    cases inp <;> exact fun b hb => absurd hb (List.not_mem_nil b)
  | cons c cs ih =>
    intro inp l hcs
    cases inp with
    | nil => exact hcs
    | cons i inp =>
      intro b hb
      simp only [csLoop] at hb
      rcases List.mem_cons.mp hb with rfl | hb
      · exact xor_lt_256 _ _ (hcs c (List.mem_cons_self c cs))
          (getD_lt_256 S S_bytes _ 0 (by omega))
      · exact ih inp _ (fun y hy => hcs y (List.mem_cons.mpr (Or.inr hy))) b hb

theorem update_block_bytes (m : MD2) (input : List Nat)
    (hs : IsBytes m.state) (hc : IsBytes m.checksum) (hi : IsBytes input) :
    IsBytes (m._update input).state ∧ IsBytes (m._update input).checksum := by
  constructor
  · rw [update_block_state]
    exact bytes_take _ (roundsLoop_bytes _
      (bytes_append _ _ (bytes_append _ _ hs hi) (bytes_zipWith _ _ hs hi))) 16
  · rw [update_block_checksum]
    exact csLoop_bytes m.checksum input _ hc

theorem processBlocks_bytes (m : MD2) (rest : List Nat) :
    IsBytes m.state → IsBytes m.checksum → IsBytes rest →
    IsBytes (processBlocks m rest).1.state ∧ IsBytes (processBlocks m rest).1.checksum ∧
    IsBytes (processBlocks m rest).2 := by
  induction m, rest using processBlocks_induct with
  | h1 m rest h ih =>
    intro hs hc hr
    rw [processBlocks_eq_pos m rest h]
    have hblk := update_block_bytes m (rest.take 16) hs hc (bytes_take rest hr 16)
    exact ih hblk.1 hblk.2 (bytes_drop rest hr 16)
  | h2 m rest h =>
    intro hs hc hr
    rw [processBlocks_eq_neg m rest h]
    exact ⟨hs, hc, hr⟩

theorem update_WFB (m : MD2) (xs : List Nat) (h : m.WFB) (hx : IsBytes xs) :
    (m.update xs).WFB := by
  obtain ⟨hwf, hs, hc, hb⟩ := h
  have c := update_core_eq m xs hwf
  have htb : IsBytes (m.buffer.take m.count ++ xs) := bytes_append _ _ hb hx
  have hpb := processBlocks_bytes m (m.buffer.take m.count ++ xs) hs hc htb
  refine ⟨update_WF m xs hwf, ?_, ?_, ?_⟩
  · rw [c.1]; exact hpb.1
  · rw [c.2.1]; exact hpb.2.1
  · rw [c.2.2.2.1]; exact hpb.2.2

theorem new_WFB : MD2.WFB MD2.new := by decide

theorem reachable_WFB (m : MD2) (h : m.Reachable) : m.WFB := by
  induction h with
  | new => exact new_WFB
  | update input hb hr ih => exact update_WFB _ input ih hr

/-! ### finalize: length, bytes, unfolding -/

theorem finalize_eq (m : MD2) :
    m.finalize
      = ((({ m with buffer := m.paddedBuf } : MD2)._update m.paddedBuf)._update
          (({ m with buffer := m.paddedBuf } : MD2)._update m.paddedBuf).checksum).state := by
  simp only [MD2.finalize]

theorem finalize_length (m : MD2) (h : m.WF) : m.finalize.length = 16 := by
  obtain ⟨hsl, hcl, hbl, hcnt⟩ := h
  have hpad : m.paddedBuf.length = 16 := paddedBuf_length m hbl (by omega)
  rw [finalize_eq]
  apply update_block_state_length
  · apply update_block_state_length
    · exact hsl
    · exact hpad
  · rw [update_block_checksum_length]
    exact hcl

theorem finalize_bytes (m : MD2) (h : m.WFB) : IsBytes m.finalize := by
  obtain ⟨⟨hsl, hcl, hbl, hcnt⟩, hs, hc, hb⟩ := h
  have hpadb : IsBytes m.paddedBuf := by
    rw [MD2.paddedBuf]
    exact bytes_append _ _ hb (bytes_replicate _ _ (by omega))
  rw [finalize_eq]
  have h1 := update_block_bytes { m with buffer := m.paddedBuf } m.paddedBuf hs hc hpadb
  exact (update_block_bytes _ _ h1.1 h1.2 h1.2).1

/-! ### The hex rendering -/

theorem hex_flatMap_length (l : List Nat) : (l.flatMap byteHex).length = 2 * l.length := by
  induction l with
  | nil => rfl
  | cons b bs ih =>
    rw [List.flatMap_cons, List.length_append, ih, List.length_cons]
    show 2 + 2 * bs.length = 2 * (bs.length + 1)
    omega

theorem string_foldl_hex (bytes : List Nat) : ∀ (s : String),
    bytes.foldl (fun s b => s ++ String.mk (byteHex b)) s
      = String.mk (s.data ++ bytes.flatMap byteHex) := by
  induction bytes with
  | nil =>
    intro s
    rw [List.foldl_nil, List.flatMap_nil, List.append_nil]
  | cons b bs ih =>
    intro s
    rw [List.foldl_cons, ih, String.data_append, List.flatMap_cons, List.append_assoc]

theorem toHex_eq (m : MD2) : m.toHex = String.mk (m.finalize.flatMap byteHex) := by
  rw [MD2.toHex, string_foldl_hex,
    show ("" : String).data = ([] : List Char) from rfl, List.nil_append]

theorem byteHex_eq_spec (b : Nat) (hb : b < 256) :
    byteHex b = [specHexDigit (b / 16), specHexDigit (b % 16)] := by
  have key : ∀ d, d < 16 → hexChars.getD d '0' = specHexDigit d := by decide
  rw [byteHex, key (b / 16) (by omega), key (b % 16) (by omega)]

theorem flatMap_byteHex_spec (l : List Nat) (h : IsBytes l) :
    l.flatMap byteHex
      = l.flatMap (fun b => [specHexDigit (b / 16), specHexDigit (b % 16)]) := by
  induction l with
  | nil => rfl
  | cons b bs ih =>
    rw [List.flatMap_cons, List.flatMap_cons,
      byteHex_eq_spec b (h b (List.mem_cons_self b bs)),
      ih (fun y hy => h y (List.mem_cons.mpr (Or.inr hy)))]

theorem toHex_spec_eq (m : MD2) (hb : IsBytes m.finalize) :
    m.toHex = specHexEncode m.finalize := by
  rw [toHex_eq, specHexEncode, flatMap_byteHex_spec m.finalize hb]

theorem toHex_length (m : MD2) (h : m.finalize.length = 16) : m.toHex.length = 32 := by
  rw [toHex_eq, String.length_mk, hex_flatMap_length, h]

theorem string_data_mk (L : List Char) : (String.mk L).data = L := rfl

theorem toHex_data (m : MD2) : m.toHex.data = m.finalize.flatMap byteHex := by
  rw [toHex_eq, string_data_mk]

theorem toHex_chars (m : MD2) : ∀ ch ∈ m.toHex.data, ch ∈ hexChars := by
  intro ch hch
  rw [toHex_data] at hch
  obtain ⟨b, hbmem, hbh⟩ := List.mem_flatMap.mp hch
  have hmem : ∀ k : Nat, hexChars.getD k '0' ∈ hexChars := by
    intro k
    rcases lt_or_ge k hexChars.length with hk | hk
    · rw [List.getD_eq_getElem _ _ hk]
      exact List.getElem_mem hk
    · rw [List.getD_eq_default _ _ hk]
      decide
  rcases List.mem_cons.mp hbh with rfl | hbh
  · exact hmem _
  rcases List.mem_cons.mp hbh with rfl | hbh
  · exact hmem _
  exact absurd hbh (List.not_mem_nil ch)


/-! ### Claim theorems -/

/-- C1: for each known-answer vector, constructing an engine over the input
bytes and finalizing it (rendered as lowercase hex) yields exactly the
listed 16-byte digest. -/
theorem md2_known_answer_vectors :
    (MD2.with_input (strBytes "")).toHex = "8350e5a3e24c153df2275c9f80692773" ∧
    (MD2.with_input (strBytes "a")).toHex = "32ec01ec4a6dac72c0ab96fb34c0b5d1" ∧
    (MD2.with_input (strBytes "abc")).toHex = "da853b0d3f88d99b30283a69e6ded6bb" ∧
    (MD2.with_input (strBytes "message digest")).toHex
      = "ab4f496bfb2a530b219ff33031fe06b0" ∧
    (MD2.with_input (strBytes "abcdefghijklmnopqrstuvwxyz")).toHex
      = "4e8ddff3650292ab5a4108c3aa47940b" ∧
    (MD2.with_input
      (strBytes "ABCDEFGHIJKLMNOPQRSTUVWXYZabcdefghijklmnopqrstuvwxyz0123456789")).toHex
      = "da33def2a42df13975352846c30338cd" ∧
    (MD2.with_input (strBytes
      "12345678901234567890123456789012345678901234567890123456789012345678901234567890")).toHex
      = "d5976f79d83d3a0dc9806c3c66f3efd8" := by
  decide

/-- C2: for every input and every way of splitting it into consecutive
sub-slices, feeding the sub-slices via repeated update calls from a fresh
engine and finalizing yields the same digest as a single update over the
whole input followed by finalize, and the same as finalizing
with_input(whole input). -/
theorem md2_chunking_invariance (cs : List (List Nat)) :
    (cs.foldl MD2.update MD2.new).finalize = (MD2.new.update cs.flatten).finalize ∧
    (cs.foldl MD2.update MD2.new).finalize = (MD2.with_input cs.flatten).finalize := by
  have h := foldl_update_core cs MD2.new (by decide)
  exact ⟨finalize_congr _ _ h, finalize_congr _ _ h⟩

/-- C3: in every compression step over a 16-byte block the checksum follows
the XOR rule: with `l` starting as the carried checksum[15] (zero on a fresh
engine), each checksum[j] becomes checksum[j] XOR S[input[j] XOR l] and `l`
is then the just-updated checksum[j]. -/
theorem md2_checksum_xor_rule (m : MD2) (input : List Nat) (j : Nat)
    (hc : m.checksum.length = 16) (hi : input.length = 16) (hj : j < 16) :
    (m._update input).checksum.getD j 0
      = m.checksum.getD j 0
        ^^^ S.getD (input.getD j 0
          ^^^ lSpec (m.checksum.getD 15 0) m.checksum input j) 0
    ∧ MD2.new.checksum.getD 15 0 = 0 := by
  constructor
  · rw [update_block_checksum]
    exact csLoop_getD j m.checksum input _ (by omega) (by omega)
  · decide

theorem md2_checksum_xor_rule_witness :
    ((MD2.new._update (List.replicate 16 7)).checksum.getD 3 0
      = MD2.new.checksum.getD 3 0
        ^^^ S.getD ((List.replicate 16 7).getD 3 0
          ^^^ lSpec (MD2.new.checksum.getD 15 0) MD2.new.checksum
            (List.replicate 16 7) 3) 0
    ∧ MD2.new.checksum.getD 15 0 = 0) :=
  md2_checksum_xor_rule MD2.new (List.replicate 16 7) 3 (by decide) (by decide) (by decide)

/-- C4: the compression step builds the 48-byte scratch array as state,
then the block, then state XOR block, runs exactly 18 rounds of the
indexed loop (x[k] ^= S[t]; t = new x[k]; then t = (t + j) mod 256, with t
starting at 0), and keeps only the first 16 bytes as the new state. -/
theorem md2_compression_rounds (m : MD2) (input : List Nat)
    (hs : m.state.length = 16) (hi : input.length = 16) :
    (m._update input).state = (specRounds (specBuildX m.state input)).take 16 ∧
    (m._update input).state.length = 16 := by
  have hlen48 : (m.state ++ input
      ++ List.zipWith (fun a b => a ^^^ b) m.state input).length = 48 := by
    rw [List.length_append, List.length_append, List.length_zipWith, hs, hi]
    decide
  constructor
  · rw [update_block_state, specBuildX_eq m.state input hs hi,
      specRounds_eq_roundsLoop _ hlen48]
  · exact update_block_state_length m input hs hi

theorem md2_compression_rounds_witness :
    (MD2.new._update (List.replicate 16 0)).state
      = (specRounds (specBuildX MD2.new.state (List.replicate 16 0))).take 16 ∧
    (MD2.new._update (List.replicate 16 0)).state.length = 16 :=
  md2_compression_rounds MD2.new (List.replicate 16 0) (by decide) (by decide)

/-- C5: finalize computes padding_len = 16 - count, always in 1..16 (an
empty leftover buffer gets a full 16-byte padding block), fills
buffer[count..16] with the value padding_len, compresses the padded
buffer, compresses the checksum as one more block, and returns the
resulting state. -/
theorem md2_finalize_padding (m : MD2) (h : m.WF) :
    1 ≤ 16 - m.count ∧ 16 - m.count ≤ 16 ∧
    m.paddedBuf = m.buffer.take m.count
      ++ List.replicate (16 - m.count) (16 - m.count) ∧
    m.paddedBuf.length = 16 ∧
    (m.count = 0 → m.paddedBuf = List.replicate 16 16) ∧
    m.finalize
      = ((({ m with buffer := m.paddedBuf } : MD2)._update m.paddedBuf)._update
          (({ m with buffer := m.paddedBuf } : MD2)._update m.paddedBuf).checksum).state := by
  obtain ⟨hsl, hcl, hbl, hcnt⟩ := h
  refine ⟨by omega, by omega, ?_, paddedBuf_length m hbl (by omega), ?_, finalize_eq m⟩
  · rw [MD2.paddedBuf, hbl]
  · intro h0
    rw [MD2.paddedBuf, hbl, h0]
    rfl

theorem md2_finalize_padding_witness :
    1 ≤ 16 - MD2.new.count ∧ 16 - MD2.new.count ≤ 16 ∧
    MD2.new.paddedBuf = MD2.new.buffer.take MD2.new.count
      ++ List.replicate (16 - MD2.new.count) (16 - MD2.new.count) ∧
    MD2.new.paddedBuf.length = 16 ∧
    (MD2.new.count = 0 → MD2.new.paddedBuf = List.replicate 16 16) ∧
    MD2.new.finalize
      = ((({ MD2.new with buffer := MD2.new.paddedBuf } : MD2)._update
            MD2.new.paddedBuf)._update
          (({ MD2.new with buffer := MD2.new.paddedBuf } : MD2)._update
            MD2.new.paddedBuf).checksum).state :=
  md2_finalize_padding MD2.new (by decide)

/-- C6: any engine with count < 16 keeps count < 16 after any update call,
and count < 16 holds across any sequence of updates from a fresh engine. -/
theorem md2_count_invariant :
    (∀ (m : MD2) (input : List Nat), m.count < 16 → (m.update input).count < 16) ∧
    (∀ (cs : List (List Nat)), (cs.foldl MD2.update MD2.new).count < 16) := by
  have hstep : ∀ (m : MD2) (input : List Nat), m.count < 16 →
      (m.update input).count < 16 := by
    intro m input hcnt
    have hminle2 : min input.length (16 - m.count) ≤ 16 - m.count := Nat.min_le_right _ _
    simp only [MD2.update]
    by_cases hfull : m.count + min input.length (16 - m.count) = 16
    · rw [if_pos hfull]
      exact processBlocks_rem_lt _ _
    · rw [if_neg hfull]
      show m.count + min input.length (16 - m.count) < 16
      omega
  refine ⟨hstep, ?_⟩
  have hfold : ∀ (cs : List (List Nat)) (m : MD2), m.count < 16 →
      (cs.foldl MD2.update m).count < 16 := by
    intro cs
    induction cs with
    | nil => intro m hm; exact hm
    | cons chunk rest ih =>
      intro m hm
      rw [List.foldl_cons]
      exact ih _ (hstep m chunk hm)
  exact fun cs => hfold cs MD2.new (by decide)

theorem md2_count_invariant_witness :
    (MD2.new.update (List.replicate 20 7)).count < 16 :=
  md2_count_invariant.1 MD2.new (List.replicate 20 7) (by decide)

/-- C7: on a well-formed engine, every slice bound in update/finalize holds
and every internal compression call receives exactly 16 bytes: the fully
checked variants succeed and agree with the unchecked operations. -/
theorem md2_internal_safety (m : MD2) (input : List Nat) (h : m.WF) :
    m.updateChecked input = some (m.update input) ∧
    m.finalizeChecked = some m.finalize :=
  ⟨updateChecked_eq m input h, finalizeChecked_eq m h⟩

theorem md2_internal_safety_witness :
    MD2.new.updateChecked (List.replicate 3 1)
      = some (MD2.new.update (List.replicate 3 1)) ∧
    MD2.new.finalizeChecked = some MD2.new.finalize :=
  md2_internal_safety MD2.new (List.replicate 3 1) (by decide)

/-- C8: for every reachable engine, the display operation produces the
32-character lowercase-hex encoding of the digest finalize would return
(two hex digits per byte, every character a lowercase hex digit); the
formatting function reads the engine value without modifying it, so a
subsequent finalize of the same value returns that digest. -/
theorem md2_display_hex (m : MD2) (h : m.Reachable) :
    m.toHex = specHexEncode m.finalize ∧
    m.toHex.length = 32 ∧
    (∀ ch ∈ m.toHex.data, ch ∈ hexChars) := by
  have hwfb := reachable_WFB m h
  exact ⟨toHex_spec_eq m (finalize_bytes m hwfb),
    toHex_length m (finalize_length m hwfb.1), toHex_chars m⟩

theorem md2_display_hex_witness :
    MD2.new.toHex = specHexEncode MD2.new.finalize ∧
    MD2.new.toHex.length = 32 ∧
    (∀ ch ∈ MD2.new.toHex.data, ch ∈ hexChars) :=
  md2_display_hex MD2.new MD2.Reachable.new

/-- C9: with_input(bytes) is the engine produced by new() followed by a
single update(bytes): all four fields are identical. -/
theorem md2_with_input_is_new_update (input : List Nat) :
    MD2.with_input input = MD2.new.update input := rfl

/-- C10: the Default construction equals new(), so finalizing a
default-constructed engine yields the empty-input digest. -/
theorem md2_default_eq_new :
    MD2.default = MD2.new ∧
    MD2.default.finalize = (MD2.with_input (strBytes "")).finalize ∧
    MD2.default.toHex = "8350e5a3e24c153df2275c9f80692773" :=
  ⟨rfl, by decide, by decide⟩
